import Mathlib

/-!
Shallow embedding of the `supert` bytecode virtual machine
(`src/interpreter/src/{vm.rs, instruction.rs, stack.rs, error.rs}`).

Modelling conventions:
* The instruction stream `Vec<u8>` is a `List Nat` of bytes; `Vec<StackValue>`
  is a `List StackValue` with the head of the list as the top of the stack;
  the `HashMap<String, i64>` of variables is an association list keyed by the
  four raw name bytes, with insertion consing a new binding in front (lookup
  takes the most recent binding, observably the same as the hash map).
* `i64` values are `Int`; the wrapping `+`, `-`, `*` of the release profile
  are modelled by reducing modulo 2^64 into the signed range (the spec fixes
  two's-complement wrapping as the arithmetic contract).  Rust's `/` and `%`
  on `i64` panic on a zero right operand and on `i64::MIN ⊘ -1` in every
  profile; those panics are modelled by the `crash` outcome.
* Every Rust `panic!` (out-of-range slice indexing in the decoder, the
  channel/int conversion panic, `unimplemented!()` for Spawn, arithmetic
  trap) is the `crash` outcome, kept distinct from `VMError` results.
* Channels are abstracted by an identifier: the send/receive endpoint pair
  always travels together as one stack value, and the value produced by a
  blocking `recv()` is an external input, passed to the step function as an
  oracle argument.
-/

set_option maxRecDepth 10000

namespace Supert

/-- Error kinds of `error.rs` (`enum VMError`). -/
inductive VMError where
  | DivisionByZero
  | StackOverflow
  | StackUnderflow
  | UnknownInstruction
  | UnwrapError
  deriving DecidableEq, Repr

/-- Stack values of `stack.rs` (`enum StackValue`): a 64-bit integer or a
channel endpoint pair, the latter abstracted by an identifier. -/
inductive StackValue where
  | Int : Int → StackValue
  | Channel : Nat → StackValue
  deriving DecidableEq, Repr

/-- Opcodes of `instruction.rs` (`enum Instruction`). -/
inductive Instruction where
  | LoadVal | WriteVar | ReadVar | FuncCall
  | Add | Sub | Mul | Div | Mod
  | Jump | JumpBack | JumpIfTrue | JumpIfFalse
  | NotEq | Eq | Gt | Lt | Gte | Lte
  | SendChannel | RecvChannel | Spawn | ReturnIndex | Finish
  deriving DecidableEq, Repr

/-- Decoding of an opcode byte, `impl From<u8> for Instruction`.  Bytes 0..=23
map to opcodes; any other byte hits the `panic!` arm, modelled as `none`. -/
def instructionFromByte : Nat → Option Instruction
  | 0 => some .LoadVal
  | 1 => some .WriteVar
  | 2 => some .ReadVar
  | 3 => some .FuncCall
  | 4 => some .Add
  | 5 => some .Sub
  | 6 => some .Mul
  | 7 => some .Div
  | 8 => some .Mod
  | 9 => some .Jump
  | 10 => some .JumpBack
  | 11 => some .JumpIfTrue
  | 12 => some .JumpIfFalse
  | 13 => some .NotEq
  | 14 => some .Eq
  | 15 => some .Gt
  | 16 => some .Lt
  | 17 => some .Gte
  | 18 => some .Lte
  | 19 => some .SendChannel
  | 20 => some .RecvChannel
  | 21 => some .Spawn
  | 22 => some .ReturnIndex
  | 23 => some .Finish
  | _ => none

/-- Encoding of an opcode to its byte, `impl Into<u8> for Instruction`. -/
def instructionToByte : Instruction → Nat
  | .LoadVal => 0
  | .WriteVar => 1
  | .ReadVar => 2
  | .FuncCall => 3
  | .Add => 4
  | .Sub => 5
  | .Mul => 6
  | .Div => 7
  | .Mod => 8
  | .Jump => 9
  | .JumpBack => 10
  | .JumpIfTrue => 11
  | .JumpIfFalse => 12
  | .NotEq => 13
  | .Eq => 14
  | .Gt => 15
  | .Lt => 16
  | .Gte => 17
  | .Lte => 18
  | .SendChannel => 19
  | .RecvChannel => 20
  | .Spawn => 21
  | .ReturnIndex => 22
  | .Finish => 23

/-- The VM state: the four fields of `struct Bytecode` in `vm.rs`. -/
structure VMState where
  instructions : List Nat
  stack : List StackValue
  vars : List (List Nat × Int)
  ip : Nat
  deriving DecidableEq, Repr

/-- Fresh VM over a program, `Bytecode::new`: empty stack, no variables,
instruction pointer 0. -/
def VMState.new (prog : List Nat) : VMState :=
  ⟨prog, [], [], 0⟩

/-- Outcome of a decoder or stack primitive: a value together with the
updated state, a `VMError` together with the state as mutated so far, or a
Rust panic (`crash`). -/
inductive PrimRes (α : Type) where
  | ok : α → VMState → PrimRes α
  | err : VMError → VMState → PrimRes α
  | crash : PrimRes α
  deriving DecidableEq, Repr

/-- Maximum stack size, `MAX_STACK_SIZE = 65535` in `vm.rs`. -/
def MAX_STACK_SIZE : Nat := 65535

/-- Push of an integer, `Bytecode::push_val`: guarded by the capacity check,
failing with `StackOverflow` (and leaving the state untouched) at capacity. -/
def push_val (s : VMState) (v : Int) : PrimRes Unit :=
  if s.stack.length < MAX_STACK_SIZE then
    .ok () { s with stack := .Int v :: s.stack }
  else
    .err .StackOverflow s

/-- Pop of an integer, `Bytecode::pop_val`: `StackUnderflow` on an empty
stack; on a `Channel` top the `Into<i64>` conversion of `stack.rs` panics. -/
def pop_val (s : VMState) : PrimRes Int :=
  match s.stack with
  | [] => .err .StackUnderflow s
  | .Int i :: rest => .ok i { s with stack := rest }
  | .Channel _ :: _ => .crash

/-- Pop of a channel, `Bytecode::pop_channel`: `StackUnderflow` on an empty
stack; an `Int` top is popped (and dropped) and reported as `StackUnderflow`
by the catch-all arm of the source. -/
def pop_channel (s : VMState) : PrimRes Nat :=
  match s.stack with
  | [] => .err .StackUnderflow s
  | .Channel c :: rest => .ok c { s with stack := rest }
  | .Int _ :: rest => .err .StackUnderflow { s with stack := rest }

/-- Four-byte name read, `Bytecode::read_string`: the slice
`instructions[ip..ip+4]` panics when it runs past the end of the stream. -/
def read_string (s : VMState) : PrimRes (List Nat) :=
  if s.ip + 4 ≤ s.instructions.length then
    .ok ((s.instructions.drop s.ip).take 4) { s with ip := s.ip + 4 }
  else
    .crash

/-- Single byte read, `Bytecode::read_byte`: indexing `instructions[ip]`
panics at or past the end of the stream. -/
def read_byte (s : VMState) : PrimRes Nat :=
  if s.ip < s.instructions.length then
    .ok (s.instructions.getD s.ip 0) { s with ip := s.ip + 1 }
  else
    .crash

/-- Value of a little-endian byte sequence (least significant byte first). -/
def leValue : List Nat → Nat
  | [] => 0
  | b :: bs => b + 256 * leValue bs

/-- Two's-complement reinterpretation of a value below 2^64 as a signed
64-bit integer. -/
def toSigned64 (n : Nat) : Int :=
  if n < 2 ^ 63 then (n : Int) else (n : Int) - 2 ^ 64

/-- Decoding of eight little-endian bytes as an `i64`
(`i64::from_le_bytes`). -/
def bytesToI64 (bs : List Nat) : Int :=
  toSigned64 (leValue bs)

/-- Little-endian 8-byte encoding of an `i64` (`i64::to_le_bytes`): byte k
is the k-th base-256 digit of the two's-complement bit pattern. -/
def encodeLE8 (v : Int) : List Nat :=
  let n := (v % (2 : Int) ^ 64).toNat
  [n % 256, n / 256 % 256, n / 256 / 256 % 256, n / 256 / 256 / 256 % 256,
   n / 256 / 256 / 256 / 256 % 256, n / 256 / 256 / 256 / 256 / 256 % 256,
   n / 256 / 256 / 256 / 256 / 256 / 256 % 256,
   n / 256 / 256 / 256 / 256 / 256 / 256 / 256 % 256]

/-- Eight-byte read, `Bytecode::read_long`: the slice
`instructions[ip..ip+8]` panics when it runs past the end of the stream (so
the `Err` arm of the source, tagged `StackOverflow`, is unreachable); in
range, the bytes are decoded little-endian signed. -/
def read_long (s : VMState) : PrimRes Int :=
  if s.ip + 8 ≤ s.instructions.length then
    .ok (bytesToI64 ((s.instructions.drop s.ip).take 8)) { s with ip := s.ip + 8 }
  else
    .crash

/-- Literal transcription of `Bytecode::read_long` that keeps the source's
`match` on `try_into()`: the slice `instructions[ip..ip+8]` panics when out
of range; in range, `try_into` to an 8-byte array succeeds exactly when the
slice has 8 bytes, and its `Err` arm returns `StackOverflow`.  The theorem
for claim C2 proves this coincides with `read_long`, so the
`StackOverflow`-tagged arm is dead code. -/
def read_long_literal (s : VMState) : PrimRes Int :=
  if s.ip + 8 ≤ s.instructions.length then
    if ((s.instructions.drop s.ip).take 8).length = 8 then
      .ok (bytesToI64 ((s.instructions.drop s.ip).take 8)) { s with ip := s.ip + 8 }
    else
      .err .StackOverflow s
  else
    .crash

/-- Lookup in the variable table (`HashMap::get`): most recent binding. -/
def lookupVar : List (List Nat × Int) → List Nat → Option Int
  | [], _ => none
  | (k, v) :: rest, n => if k = n then some v else lookupVar rest n

/-- Reduction of an integer into the signed 64-bit range, the wrapping
two's-complement arithmetic of `i64` in the release profile. -/
def wrap64 (z : Int) : Int :=
  (z + 2 ^ 63) % 2 ^ 64 - 2 ^ 63

/-- Least `i64`, `i64::MIN`. -/
def i64Min : Int := -(2 ^ 63)

/-- Outcome of one opcode handler (one arm of the dispatch `match`):
continue the loop with the new state, return a `VMError` (with the state as
mutated so far), or panic. -/
inductive ArmResult where
  | continu : VMState → ArmResult
  | error : VMError → VMState → ArmResult
  | crash : ArmResult
  deriving DecidableEq, Repr

/-- The `execute_native!` macro of `vm.rs` for an operator that cannot
panic: pop `a` (top), pop `b`, push `b ⊕ a` directly onto the stack (a raw
`Vec::push`, no capacity check); a failed pop yields `StackUnderflow`. -/
def nativeArm (f : Int → Int → Int) (s : VMState) : ArmResult :=
  match pop_val s with
  | .crash => .crash
  | .err _ s1 => .error .StackUnderflow s1
  | .ok a s1 =>
    match pop_val s1 with
    | .crash => .crash
    | .err _ s2 => .error .StackUnderflow s2
    | .ok b s2 => .continu { s2 with stack := .Int (f b a) :: s2.stack }

/-- The `Div` arm of `Bytecode::interpret`: both pops are evaluated first
(tuple evaluation order), a zero second operand yields `DivisionByZero`,
otherwise `a / b` (truncated) is pushed raw; `i64::MIN / -1` panics. -/
def divArm (s : VMState) : ArmResult :=
  match pop_val s with
  | .crash => .crash
  | .ok a s1 =>
    match pop_val s1 with
    | .crash => .crash
    | .ok b s2 =>
      if b = 0 then .error .DivisionByZero s2
      else if a = i64Min ∧ b = -1 then .crash
      else .continu { s2 with stack := .Int (Int.tdiv a b) :: s2.stack }
    | .err _ s2 => .error .StackUnderflow s2
  | .err _ s1 =>
    match pop_val s1 with
    | .crash => .crash
    | .ok _ s2 => .error .StackUnderflow s2
    | .err _ s2 => .error .StackUnderflow s2

/-- The `Mod` arm, `execute_native!(self, %)`: Rust `%` panics on a zero
right operand and on `i64::MIN % -1`, otherwise `b % a` is the truncated
remainder, pushed raw. -/
def modArm (s : VMState) : ArmResult :=
  match pop_val s with
  | .crash => .crash
  | .err _ s1 => .error .StackUnderflow s1
  | .ok a s1 =>
    match pop_val s1 with
    | .crash => .crash
    | .err _ s2 => .error .StackUnderflow s2
    | .ok b s2 =>
      if a = 0 then .crash
      else if b = i64Min ∧ a = -1 then .crash
      else .continu { s2 with stack := .Int (Int.tmod b a) :: s2.stack }

/-- Argument loop of the `FuncCall` arm: read `n` longs and push each via
the guarded `push_val`, in stream order. -/
def readArgs : Nat → VMState → PrimRes Unit
  | 0, s => .ok () s
  | n + 1, s =>
    match read_long s with
    | .crash => .crash
    | .err e s1 => .err e s1
    | .ok v s1 =>
      match push_val s1 v with
      | .crash => .crash
      | .err e s2 => .err e s2
      | .ok _ s2 => readArgs n s2

/-- One opcode handler of `Bytecode::interpret`, entered with the
instruction pointer already advanced past the opcode byte.  `recvVal` is the
external value a blocking `recv()` would produce.  The `Finish` arm is never
reached from `step` (the loop breaks on `Finish` before dispatching). -/
def execInstr (i : Instruction) (recvVal : Int) (s : VMState) : ArmResult :=
  match i with
  | .LoadVal =>
    match read_long s with
    | .crash => .crash
    | .err e s1 => .error e s1
    | .ok v s1 =>
      match push_val s1 v with
      | .crash => .crash
      | .err e s2 => .error e s2
      | .ok _ s2 => .continu s2
  | .WriteVar =>
    match read_string s with
    | .crash => .crash
    | .err e s1 => .error e s1
    | .ok nm s1 =>
      match pop_val s1 with
      | .crash => .crash
      | .err e s2 => .error e s2
      | .ok v s2 => .continu { s2 with vars := (nm, v) :: s2.vars }
  | .ReadVar =>
    match read_string s with
    | .crash => .crash
    | .err e s1 => .error e s1
    | .ok nm s1 =>
      match lookupVar s1.vars nm with
      | some v =>
        match push_val s1 v with
        | .crash => .crash
        | .err e s2 => .error e s2
        | .ok _ s2 => .continu s2
      | none => .error .StackUnderflow s1
  | .FuncCall =>
    match read_byte s with
    | .crash => .crash
    | .err e s1 => .error e s1
    | .ok hi s1 =>
      match read_byte s1 with
      | .crash => .crash
      | .err e s2 => .error e s2
      | .ok lo s2 =>
        match read_byte s2 with
        | .crash => .crash
        | .err e s3 => .error e s3
        | .ok n s3 =>
          match readArgs n s3 with
          | .crash => .crash
          | .err e s4 => .error e s4
          | .ok _ s4 => .continu { s4 with ip := 256 * hi + lo }
  | .ReturnIndex =>
    match read_byte s with
    | .crash => .crash
    | .err e s1 => .error e s1
    | .ok hi s1 =>
      match read_byte s1 with
      | .crash => .crash
      | .err e s2 => .error e s2
      | .ok lo s2 => .continu { s2 with ip := 256 * hi + lo }
  | .Jump =>
    match read_byte s with
    | .crash => .crash
    | .err e s1 => .error e s1
    | .ok off s1 => .continu { s1 with ip := s1.ip + off }
  | .JumpBack =>
    match read_byte s with
    | .crash => .crash
    | .err e s1 => .error e s1
    | .ok off s1 =>
      .continu { s1 with ip := if off ≤ s1.ip then s1.ip - off else s1.ip + 2 ^ 64 - off }
  | .JumpIfFalse =>
    match read_byte s with
    | .crash => .crash
    | .err e s1 => .error e s1
    | .ok off s1 =>
      match pop_val s1 with
      | .crash => .crash
      | .err e s2 => .error e s2
      | .ok v s2 => .continu (if v = 0 then { s2 with ip := s2.ip + off } else s2)
  | .JumpIfTrue =>
    match read_byte s with
    | .crash => .crash
    | .err e s1 => .error e s1
    | .ok off s1 =>
      match pop_val s1 with
      | .crash => .crash
      | .err e s2 => .error e s2
      | .ok v s2 => .continu (if v ≠ 0 then { s2 with ip := s2.ip + off } else s2)
  | .Add => nativeArm (fun b a => wrap64 (b + a)) s
  | .Sub => nativeArm (fun b a => wrap64 (b - a)) s
  | .Mul => nativeArm (fun b a => wrap64 (b * a)) s
  | .Div => divArm s
  | .Mod => modArm s
  | .Eq => nativeArm (fun b a => if b = a then 1 else 0) s
  | .NotEq => nativeArm (fun b a => if b ≠ a then 1 else 0) s
  | .Lt => nativeArm (fun b a => if b < a then 1 else 0) s
  | .Gt => nativeArm (fun b a => if b > a then 1 else 0) s
  | .Lte => nativeArm (fun b a => if b ≤ a then 1 else 0) s
  | .Gte => nativeArm (fun b a => if b ≥ a then 1 else 0) s
  | .SendChannel =>
    match pop_val s with
    | .crash => .crash
    | .err e s1 => .error e s1
    | .ok _ s1 =>
      match pop_channel s1 with
      | .crash => .crash
      | .err e s2 => .error e s2
      | .ok c s2 => .continu { s2 with stack := .Channel c :: s2.stack }
  | .RecvChannel =>
    match pop_channel s with
    | .crash => .crash
    | .err e s1 => .error e s1
    | .ok c s1 =>
      match push_val { s1 with stack := .Channel c :: s1.stack } recvVal with
      | .crash => .crash
      | .err e s2 => .error e s2
      | .ok _ s2 => .continu s2
  | .Spawn => .crash
  | .Finish => .crash

/-- Outcome of one iteration of the dispatch loop. -/
inductive StepResult where
  | continu : VMState → StepResult
  | finished : VMState → StepResult
  | error : VMError → VMState → StepResult
  | crash : StepResult
  deriving DecidableEq, Repr

/-- Inclusion of handler outcomes into loop outcomes. -/
def liftArm : ArmResult → StepResult
  | .continu s => .continu s
  | .error e s => .error e s
  | .crash => .crash

/-- One iteration of the dispatch loop of `Bytecode::interpret`: the loop
breaks when `next_instruction` returns `None` (instruction pointer at or
past the end) and when the decoded opcode is `Finish`; an unrecognized
opcode byte panics in `From<u8>`; otherwise the opcode handler runs with the
instruction pointer advanced past the opcode byte. -/
def step (recvVal : Int) (s : VMState) : StepResult :=
  if s.instructions.length ≤ s.ip then .finished s
  else
    match instructionFromByte (s.instructions.getD s.ip 0) with
    | none => .crash
    | some .Finish => .finished { s with ip := s.ip + 1 }
    | some i => liftArm (execInstr i recvVal { s with ip := s.ip + 1 })

/-- Result of a whole run as seen by the embedder. -/
inductive RunResult where
  | ok : Int → RunResult
  | err : VMError → RunResult
  | crash : RunResult
  | fuelOut : RunResult
  deriving DecidableEq, Repr

/-- Final pop after the loop: `interpret` returns `self.pop_val()` mapped
onto the run result. -/
def finalPop (s : VMState) : RunResult :=
  match pop_val s with
  | .ok v _ => .ok v
  | .err e _ => .err e
  | .crash => .crash

/-- Fuel-bounded unfolding of the dispatch loop of `Bytecode::interpret`;
`oracle` supplies the value received by each `RecvChannel` step, indexed by
the remaining fuel. -/
def interpretFuel (oracle : Nat → Int) : Nat → VMState → RunResult
  | 0, _ => .fuelOut
  | n + 1, s =>
    match step (oracle n) s with
    | .continu s1 => interpretFuel oracle n s1
    | .finished s1 => finalPop s1
    | .error e _ => .err e
    | .crash => .crash

/-- Reachability along the dispatch loop: reflexive-transitive closure of
continuing steps, with an arbitrary received value at each step. -/
inductive Reaches : VMState → VMState → Prop
  | refl (s : VMState) : Reaches s s
  | next (s s1 s2 : VMState) (r : Int) :
      Reaches s s1 → step r s1 = .continu s2 → Reaches s s2

/-- Componentwise equality of VM states. -/
theorem VMState.eq_of_fields {a b : VMState}
    (h1 : a.instructions = b.instructions) (h2 : a.stack = b.stack)
    (h3 : a.vars = b.vars) (h4 : a.ip = b.ip) : a = b := by
  cases a; cases b; simp_all

theorem pop_val_ok_facts {s : VMState} {v : Int} {s1 : VMState}
    (h : pop_val s = .ok v s1) :
    s1.instructions = s.instructions ∧ s1.vars = s.vars ∧ s1.ip = s.ip ∧
    s.stack = .Int v :: s1.stack := by
  unfold pop_val at h
  split at h <;> (try injection h with h1 h2) <;> (try subst h2) <;> simp_all

theorem pop_val_err_facts {s : VMState} {e : VMError} {s1 : VMState}
    (h : pop_val s = .err e s1) :
    e = .StackUnderflow ∧ s1 = s ∧ s.stack = [] := by
  unfold pop_val at h
  split at h <;> (try injection h with h1 h2) <;> (try subst h2) <;> simp_all

theorem pop_channel_ok_facts {s : VMState} {c : Nat} {s1 : VMState}
    (h : pop_channel s = .ok c s1) :
    s1.instructions = s.instructions ∧ s1.vars = s.vars ∧ s1.ip = s.ip ∧
    s.stack = .Channel c :: s1.stack := by
  unfold pop_channel at h
  split at h <;> (try injection h with h1 h2) <;> (try subst h2) <;> simp_all

theorem pop_channel_err_facts {s : VMState} {e : VMError} {s1 : VMState}
    (h : pop_channel s = .err e s1) :
    e = .StackUnderflow ∧ s1.instructions = s.instructions ∧ s1.vars = s.vars ∧
    s1.ip = s.ip ∧ s1.stack.length ≤ s.stack.length := by
  unfold pop_channel at h
  split at h <;> (try injection h with h1 h2) <;> (try subst h2) <;> simp_all

theorem push_val_ok_facts {s : VMState} {v : Int} {u : Unit} {s1 : VMState}
    (h : push_val s v = .ok u s1) :
    s.stack.length < MAX_STACK_SIZE ∧ s1 = { s with stack := .Int v :: s.stack } := by
  unfold push_val at h
  split at h <;> (try injection h with h1 h2) <;> (try subst h2) <;> simp_all

theorem push_val_err_facts {s : VMState} {v : Int} {e : VMError} {s1 : VMState}
    (h : push_val s v = .err e s1) :
    e = .StackOverflow ∧ s1 = s ∧ MAX_STACK_SIZE ≤ s.stack.length := by
  unfold push_val at h
  split at h <;> (try injection h with h1 h2) <;> (try subst h2) <;> simp_all

theorem read_byte_ok_facts {s : VMState} {b : Nat} {s1 : VMState}
    (h : read_byte s = .ok b s1) :
    s.ip < s.instructions.length ∧ b = s.instructions.getD s.ip 0 ∧
    s1 = { s with ip := s.ip + 1 } := by
  unfold read_byte at h
  split at h <;> (try injection h with h1 h2) <;> (try subst h2) <;> simp_all

theorem read_byte_no_err {s : VMState} {e : VMError} {s1 : VMState}
    (h : read_byte s = .err e s1) : False := by
  unfold read_byte at h
  split at h <;> (try injection h with h1 h2) <;> (try subst h2) <;> simp_all

theorem read_string_ok_facts {s : VMState} {nm : List Nat} {s1 : VMState}
    (h : read_string s = .ok nm s1) :
    s.ip + 4 ≤ s.instructions.length ∧ nm = (s.instructions.drop s.ip).take 4 ∧
    s1 = { s with ip := s.ip + 4 } := by
  unfold read_string at h
  split at h <;> (try injection h with h1 h2) <;> (try subst h2) <;> simp_all

theorem read_string_no_err {s : VMState} {e : VMError} {s1 : VMState}
    (h : read_string s = .err e s1) : False := by
  unfold read_string at h
  split at h <;> (try injection h with h1 h2) <;> (try subst h2) <;> simp_all

theorem read_long_ok_facts {s : VMState} {v : Int} {s1 : VMState}
    (h : read_long s = .ok v s1) :
    s.ip + 8 ≤ s.instructions.length ∧
    v = bytesToI64 ((s.instructions.drop s.ip).take 8) ∧
    s1 = { s with ip := s.ip + 8 } := by
  unfold read_long at h
  split at h <;> (try injection h with h1 h2) <;> (try subst h2) <;> simp_all

theorem read_long_no_err {s : VMState} {e : VMError} {s1 : VMState}
    (h : read_long s = .err e s1) : False := by
  unfold read_long at h
  split at h <;> (try injection h with h1 h2) <;> (try subst h2) <;> simp_all

theorem nativeArm_continu_facts {f : Int → Int → Int} {s s1 : VMState}
    (h : nativeArm f s = .continu s1) :
    ∃ a b rest, s.stack = .Int a :: .Int b :: rest ∧
      s1 = { s with stack := .Int (f b a) :: rest } := by
  obtain ⟨ins, stk, va, ip⟩ := s
  cases stk with
  | nil => simp [nativeArm, pop_val] at h
  | cons v t =>
    cases v with
    | Channel c => simp [nativeArm, pop_val] at h
    | Int a =>
      cases t with
      | nil => simp [nativeArm, pop_val] at h
      | cons w t2 =>
        cases w with
        | Channel c => simp [nativeArm, pop_val] at h
        | Int b =>
          simp only [nativeArm, pop_val] at h
          injection h with h1
          exact ⟨a, b, t2, rfl, h1.symm⟩

theorem divArm_continu_facts {s s1 : VMState}
    (h : divArm s = .continu s1) :
    ∃ a b rest, s.stack = .Int a :: .Int b :: rest ∧ b ≠ 0 ∧
      ¬(a = i64Min ∧ b = -1) ∧
      s1 = { s with stack := .Int (Int.tdiv a b) :: rest } := by
  obtain ⟨ins, stk, va, ip⟩ := s
  cases stk with
  | nil => simp [divArm, pop_val] at h
  | cons v t =>
    cases v with
    | Channel c => simp [divArm, pop_val] at h
    | Int a =>
      cases t with
      | nil => simp [divArm, pop_val] at h
      | cons w t2 =>
        cases w with
        | Channel c => simp [divArm, pop_val] at h
        | Int b =>
          simp only [divArm, pop_val] at h
          split at h
          · simp at h
          · split at h
            · simp at h
            · injection h with h1
              refine ⟨a, b, t2, rfl, by assumption, by assumption, h1.symm⟩

theorem modArm_continu_facts {s s1 : VMState}
    (h : modArm s = .continu s1) :
    ∃ a b rest, s.stack = .Int a :: .Int b :: rest ∧ a ≠ 0 ∧
      ¬(b = i64Min ∧ a = -1) ∧
      s1 = { s with stack := .Int (Int.tmod b a) :: rest } := by
  obtain ⟨ins, stk, va, ip⟩ := s
  cases stk with
  | nil => simp [modArm, pop_val] at h
  | cons v t =>
    cases v with
    | Channel c => simp [modArm, pop_val] at h
    | Int a =>
      cases t with
      | nil => simp [modArm, pop_val] at h
      | cons w t2 =>
        cases w with
        | Channel c => simp [modArm, pop_val] at h
        | Int b =>
          simp only [modArm, pop_val] at h
          split at h
          · simp at h
          · split at h
            · simp at h
            · injection h with h1
              refine ⟨a, b, t2, rfl, by assumption, by assumption, h1.symm⟩

theorem readArgs_ok_facts : ∀ (n : Nat) (s : VMState) (u : Unit) (s1 : VMState),
    readArgs n s = .ok u s1 →
    s1.instructions = s.instructions ∧ s1.vars = s.vars ∧
    (s.stack.length ≤ MAX_STACK_SIZE → s1.stack.length ≤ MAX_STACK_SIZE) := by
  intro n
  induction n with
  | zero =>
    intro s u s1 h
    unfold readArgs at h
    injection h with h1 h2
    subst h2
    exact ⟨rfl, rfl, fun hb => hb⟩
  | succ m ih =>
    intro s u s1 h
    unfold readArgs at h
    split at h
    · simp at h
    · exact absurd h (by simp)
    · rename_i v sA hA
      split at h
      · simp at h
      · exact absurd h (by simp)
      · rename_i uB sB hB
        obtain ⟨hA1, hA2, hA3⟩ := read_long_ok_facts hA
        obtain ⟨hB1, hB2⟩ := push_val_ok_facts hB
        obtain ⟨g1, g2, g3⟩ := ih sB u s1 h
        subst hA3
        subst hB2
        refine ⟨g1, g2, fun _ => g3 ?_⟩
        simpa using hB1

theorem execInstr_continu_facts (i : Instruction) (r : Int) {s s1 : VMState}
    (h : execInstr i r s = .continu s1) :
    s1.instructions = s.instructions ∧
    (s.stack.length ≤ MAX_STACK_SIZE → s1.stack.length ≤ MAX_STACK_SIZE) ∧
    (i ≠ Instruction.WriteVar → s1.vars = s.vars) := by
  cases i
  case LoadVal =>
    simp only [execInstr] at h
    split at h
    · simp at h
    · simp at h
    · rename_i v sA hA
      split at h
      · simp at h
      · simp at h
      · rename_i u sB hB
        injection h with h1
        subst h1
        obtain ⟨_, hA3⟩ := read_long_ok_facts hA |>.2
        obtain ⟨hB1, hB2⟩ := push_val_ok_facts hB
        subst hA3; subst hB2
        exact ⟨rfl, fun _ => by simpa using hB1, fun _ => rfl⟩
  case WriteVar =>
    simp only [execInstr] at h
    split at h
    · simp at h
    · simp at h
    · rename_i nm sA hA
      split at h
      · simp at h
      · simp at h
      · rename_i v sB hB
        injection h with h1
        subst h1
        obtain ⟨_, hA3⟩ := read_string_ok_facts hA |>.2
        obtain ⟨hB1, hB2, hB3, hB4⟩ := pop_val_ok_facts hB
        subst hA3
        refine ⟨by simpa using hB1, fun hb => ?_, fun hne => absurd rfl hne⟩
        have h4 : s.stack = .Int v :: sB.stack := by simpa using hB4
        have h5 : s.stack.length = sB.stack.length + 1 := by rw [h4]; simp
        show sB.stack.length ≤ MAX_STACK_SIZE
        omega
  case ReadVar =>
    simp only [execInstr] at h
    split at h
    · simp at h
    · simp at h
    · rename_i nm sA hA
      split at h
      · rename_i v hv
        split at h
        · simp at h
        · simp at h
        · rename_i u sB hB
          injection h with h1
          subst h1
          obtain ⟨_, hA3⟩ := read_string_ok_facts hA |>.2
          obtain ⟨hB1, hB2⟩ := push_val_ok_facts hB
          subst hA3; subst hB2
          exact ⟨rfl, fun _ => by simpa using hB1, fun _ => rfl⟩
      · simp at h
  case FuncCall =>
    simp only [execInstr] at h
    split at h
    · simp at h
    · simp at h
    · rename_i hi sA hA
      split at h
      · simp at h
      · simp at h
      · rename_i lo sB hB
        split at h
        · simp at h
        · simp at h
        · rename_i n sC hC
          split at h
          · simp at h
          · simp at h
          · rename_i u sD hD
            injection h with h1
            subst h1
            obtain ⟨_, _, hA3⟩ := read_byte_ok_facts hA
            obtain ⟨_, _, hB3⟩ := read_byte_ok_facts hB
            obtain ⟨_, _, hC3⟩ := read_byte_ok_facts hC
            obtain ⟨hD1, hD2, hD3⟩ := readArgs_ok_facts n sC u sD hD
            subst hA3; subst hB3; subst hC3
            exact ⟨by simpa using hD1, fun hb => by simpa using hD3 (by simpa using hb),
              fun _ => by simpa using hD2⟩
  case ReturnIndex =>
    simp only [execInstr] at h
    split at h
    · simp at h
    · simp at h
    · rename_i hi sA hA
      split at h
      · simp at h
      · simp at h
      · rename_i lo sB hB
        injection h with h1
        subst h1
        obtain ⟨_, _, hA3⟩ := read_byte_ok_facts hA
        obtain ⟨_, _, hB3⟩ := read_byte_ok_facts hB
        subst hA3; subst hB3
        exact ⟨rfl, fun hb => by simpa using hb, fun _ => rfl⟩
  case Jump =>
    simp only [execInstr] at h
    split at h
    · simp at h
    · simp at h
    · rename_i off sA hA
      injection h with h1
      subst h1
      obtain ⟨_, _, hA3⟩ := read_byte_ok_facts hA
      subst hA3
      exact ⟨rfl, fun hb => by simpa using hb, fun _ => rfl⟩
  case JumpBack =>
    simp only [execInstr] at h
    split at h
    · simp at h
    · simp at h
    · rename_i off sA hA
      injection h with h1
      subst h1
      obtain ⟨_, _, hA3⟩ := read_byte_ok_facts hA
      subst hA3
      exact ⟨rfl, fun hb => by simpa using hb, fun _ => rfl⟩
  case JumpIfFalse =>
    simp only [execInstr] at h
    split at h
    · simp at h
    · simp at h
    · rename_i off sA hA
      split at h
      · simp at h
      · simp at h
      · rename_i v sB hB
        injection h with h1
        obtain ⟨_, _, hA3⟩ := read_byte_ok_facts hA
        obtain ⟨hB1, hB2, hB3, hB4⟩ := pop_val_ok_facts hB
        subst hA3
        have hs : s1.instructions = sB.instructions ∧ s1.stack = sB.stack ∧
            s1.vars = sB.vars := by
          rw [← h1]
          by_cases hv : v = 0 <;> simp [hv]
        obtain ⟨g1, g2, g3⟩ := hs
        refine ⟨by simp [g1] at hB1 ⊢; exact hB1.trans rfl, fun hb => ?_,
          fun _ => by simp [g3] at hB2 ⊢; exact hB2.trans rfl⟩
        have hlen : s.stack.length = sB.stack.length + 1 := by
          have h4 := hB4
          simp at h4
          rw [h4]; simp
        rw [g2]; omega
  case JumpIfTrue =>
    simp only [execInstr] at h
    split at h
    · simp at h
    · simp at h
    · rename_i off sA hA
      split at h
      · simp at h
      · simp at h
      · rename_i v sB hB
        injection h with h1
        obtain ⟨_, _, hA3⟩ := read_byte_ok_facts hA
        obtain ⟨hB1, hB2, hB3, hB4⟩ := pop_val_ok_facts hB
        subst hA3
        have hs : s1.instructions = sB.instructions ∧ s1.stack = sB.stack ∧
            s1.vars = sB.vars := by
          rw [← h1]
          by_cases hv : v = 0 <;> simp [hv]
        obtain ⟨g1, g2, g3⟩ := hs
        refine ⟨by simp [g1] at hB1 ⊢; exact hB1.trans rfl, fun hb => ?_,
          fun _ => by simp [g3] at hB2 ⊢; exact hB2.trans rfl⟩
        have hlen : s.stack.length = sB.stack.length + 1 := by
          have h4 := hB4
          simp at h4
          rw [h4]; simp
        rw [g2]; omega
  case Add =>
    simp only [execInstr] at h
    obtain ⟨a, b, rest, h1, h2⟩ := nativeArm_continu_facts h
    subst h2
    refine ⟨rfl, fun hb => ?_, fun _ => rfl⟩
    rw [h1] at hb; simp at hb ⊢; omega
  case Sub =>
    simp only [execInstr] at h
    obtain ⟨a, b, rest, h1, h2⟩ := nativeArm_continu_facts h
    subst h2
    refine ⟨rfl, fun hb => ?_, fun _ => rfl⟩
    rw [h1] at hb; simp at hb ⊢; omega
  case Mul =>
    simp only [execInstr] at h
    obtain ⟨a, b, rest, h1, h2⟩ := nativeArm_continu_facts h
    subst h2
    refine ⟨rfl, fun hb => ?_, fun _ => rfl⟩
    rw [h1] at hb; simp at hb ⊢; omega
  case Div =>
    simp only [execInstr] at h
    obtain ⟨a, b, rest, h1, _, _, h2⟩ := divArm_continu_facts h
    subst h2
    refine ⟨rfl, fun hb => ?_, fun _ => rfl⟩
    rw [h1] at hb; simp at hb ⊢; omega
  case Mod =>
    simp only [execInstr] at h
    obtain ⟨a, b, rest, h1, _, _, h2⟩ := modArm_continu_facts h
    subst h2
    refine ⟨rfl, fun hb => ?_, fun _ => rfl⟩
    rw [h1] at hb; simp at hb ⊢; omega
  case Eq =>
    simp only [execInstr] at h
    obtain ⟨a, b, rest, h1, h2⟩ := nativeArm_continu_facts h
    subst h2
    refine ⟨rfl, fun hb => ?_, fun _ => rfl⟩
    rw [h1] at hb; simp at hb ⊢; omega
  case NotEq =>
    simp only [execInstr] at h
    obtain ⟨a, b, rest, h1, h2⟩ := nativeArm_continu_facts h
    subst h2
    refine ⟨rfl, fun hb => ?_, fun _ => rfl⟩
    rw [h1] at hb; simp at hb ⊢; omega
  case Lt =>
    simp only [execInstr] at h
    obtain ⟨a, b, rest, h1, h2⟩ := nativeArm_continu_facts h
    subst h2
    refine ⟨rfl, fun hb => ?_, fun _ => rfl⟩
    rw [h1] at hb; simp at hb ⊢; omega
  case Gt =>
    simp only [execInstr] at h
    obtain ⟨a, b, rest, h1, h2⟩ := nativeArm_continu_facts h
    subst h2
    refine ⟨rfl, fun hb => ?_, fun _ => rfl⟩
    rw [h1] at hb; simp at hb ⊢; omega
  case Lte =>
    simp only [execInstr] at h
    obtain ⟨a, b, rest, h1, h2⟩ := nativeArm_continu_facts h
    subst h2
    refine ⟨rfl, fun hb => ?_, fun _ => rfl⟩
    rw [h1] at hb; simp at hb ⊢; omega
  case Gte =>
    simp only [execInstr] at h
    obtain ⟨a, b, rest, h1, h2⟩ := nativeArm_continu_facts h
    subst h2
    refine ⟨rfl, fun hb => ?_, fun _ => rfl⟩
    rw [h1] at hb; simp at hb ⊢; omega
  case SendChannel =>
    simp only [execInstr] at h
    split at h
    · simp at h
    · simp at h
    · rename_i v sA hA
      split at h
      · simp at h
      · simp at h
      · rename_i c sB hB
        injection h with h1
        subst h1
        obtain ⟨hA1, hA2, hA3, hA4⟩ := pop_val_ok_facts hA
        obtain ⟨hB1, hB2, hB3, hB4⟩ := pop_channel_ok_facts hB
        refine ⟨by simp [hB1, hA1], fun hb => ?_, fun _ => by simp [hB2, hA2]⟩
        have e1 : s.stack.length = sA.stack.length + 1 := by rw [hA4]; simp
        have e2 : sA.stack.length = sB.stack.length + 1 := by rw [hB4]; simp
        simp only [List.length_cons]
        omega
  case RecvChannel =>
    simp only [execInstr] at h
    split at h
    · simp at h
    · simp at h
    · rename_i c sA hA
      split at h
      · simp at h
      · simp at h
      · rename_i u sB hB
        injection h with h1
        subst h1
        obtain ⟨hA1, hA2, hA3, hA4⟩ := pop_channel_ok_facts hA
        obtain ⟨hB1, hB2⟩ := push_val_ok_facts hB
        subst hB2
        exact ⟨by simpa using hA1, fun _ => by simpa using hB1,
          fun _ => by simpa using hA2⟩
  case Spawn =>
    simp only [execInstr] at h
    simp at h
  case Finish =>
    simp only [execInstr] at h
    simp at h

theorem liftArm_eq_continu {ar : ArmResult} {s1 : VMState}
    (h : liftArm ar = .continu s1) : ar = .continu s1 := by
  cases ar <;> simp_all [liftArm]

theorem liftArm_ne_finished (ar : ArmResult) (s1 : VMState) :
    liftArm ar ≠ .finished s1 := by
  cases ar <;> simp [liftArm]

theorem instructionFromByte_finish {b : Nat}
    (h : instructionFromByte b = some .Finish) : b = 23 := by
  unfold instructionFromByte at h
  split at h <;> simp_all

theorem instructionFromByte_none {b : Nat} (hb : 24 ≤ b) :
    instructionFromByte b = none := by
  unfold instructionFromByte
  split <;> first | rfl | omega

theorem step_bound {r : Int} {s s1 : VMState}
    (h : step r s = .continu s1 ∨ step r s = .finished s1)
    (hb : s.stack.length ≤ MAX_STACK_SIZE) :
    s1.stack.length ≤ MAX_STACK_SIZE := by
  unfold step at h
  rcases h with h | h
  · split at h
    · simp at h
    · split at h
      · simp at h
      · simp at h
      · rename_i i hnf heq
        have h2 := liftArm_eq_continu h
        have hf := execInstr_continu_facts i r h2
        exact hf.2.1 (by simpa using hb)
  · split at h
    · injection h with h1
      subst h1
      exact hb
    · split at h
      · simp at h
      · injection h with h1
        subst h1
        exact hb
      · exact absurd h (liftArm_ne_finished _ _)

theorem step_continu_instructions {r : Int} {s s1 : VMState}
    (h : step r s = .continu s1) : s1.instructions = s.instructions := by
  unfold step at h
  split at h
  · simp at h
  · split at h
    · simp at h
    · simp at h
    · rename_i i hnf heq
      have h2 := liftArm_eq_continu h
      have hf := execInstr_continu_facts i r h2
      simpa using hf.1

theorem reaches_bound {s0 s : VMState} (h : Reaches s0 s)
    (hb : s0.stack.length ≤ MAX_STACK_SIZE) :
    s.stack.length ≤ MAX_STACK_SIZE := by
  induction h with
  | refl => exact hb
  | next s1 s2 r hr hstep ih => exact step_bound (Or.inl hstep) ih

theorem step_finished_facts {r : Int} {s s1 : VMState}
    (h : step r s = .finished s1) :
    (s.instructions.length ≤ s.ip ∧ s1 = s) ∨
    (s.ip < s.instructions.length ∧ s.instructions.getD s.ip 0 = 23 ∧
      s1 = { s with ip := s.ip + 1 }) := by
  unfold step at h
  split at h
  · rename_i hle
    injection h with h1
    subst h1
    exact Or.inl ⟨hle, rfl⟩
  · rename_i hgt
    split at h
    · simp at h
    · rename_i heq
      injection h with h1
      subst h1
      exact Or.inr ⟨by omega, instructionFromByte_finish heq, rfl⟩
    · exact absurd h (liftArm_ne_finished _ _)

theorem step_end_finished {r : Int} {s : VMState}
    (hle : s.instructions.length ≤ s.ip) : step r s = .finished s := by
  unfold step
  rw [if_pos hle]

theorem step_byte_finish {r : Int} {s : VMState}
    (hlt : s.ip < s.instructions.length)
    (hb : s.instructions.getD s.ip 0 = 23) :
    step r s = .finished { s with ip := s.ip + 1 } := by
  unfold step
  rw [if_neg (by omega), hb]
  rfl

theorem interpretFuel_finished {oracle : Nat → Int} {n : Nat} {s s1 : VMState}
    (h : step (oracle n) s = .finished s1) :
    interpretFuel oracle (n + 1) s = finalPop s1 := by
  unfold interpretFuel
  rw [h]

theorem step_vars_unchanged {r : Int} {s s1 : VMState}
    (h : step r s = .continu s1 ∨ step r s = .finished s1)
    (hne : ∀ i, instructionFromByte (s.instructions.getD s.ip 0) = some i →
      i ≠ Instruction.WriteVar) :
    s1.vars = s.vars := by
  unfold step at h
  rcases h with h | h
  · split at h
    · simp at h
    · split at h
      · simp at h
      · simp at h
      · rename_i i hnf heq
        have h2 := liftArm_eq_continu h
        have hf := execInstr_continu_facts i r h2
        simpa using hf.2.2 (hne i heq)
  · split at h
    · injection h with h1
      subst h1
      rfl
    · split at h
      · simp at h
      · injection h with h1
        subst h1
        rfl
      · exact absurd h (liftArm_ne_finished _ _)

theorem step_eq_arm {r : Int} {s : VMState} {i : Instruction}
    (hlt : s.ip < s.instructions.length)
    (hdec : instructionFromByte (s.instructions.getD s.ip 0) = some i)
    (hni : i ≠ Instruction.Finish) :
    step r s = liftArm (execInstr i r { s with ip := s.ip + 1 }) := by
  unfold step
  rw [if_neg (by omega), hdec]
  cases i <;> first | rfl | (exact absurd rfl hni)

/-- Claim C1, counterexample: the program pushes 1 then 0, so the claim
(divisor on top) demands DivisionByZero; the interpreter instead completes
with result 0, because the top of the stack is the dividend and the value
beneath it is the divisor. -/
theorem C1_counterexample :
    interpretFuel (fun _ => 0) 10 (VMState.new
      [0,1,0,0,0,0,0,0,0, 0,0,0,0,0,0,0,0,0, 7, 23]) = .ok 0 ∧
    RunResult.ok 0 ≠ RunResult.err .DivisionByZero := by
  exact ⟨by decide, by decide⟩

/-- Claim C1, amended: for a stack holding Int(x) then Int(y) pushed in that
order (Int(y) on top), Div divides the top by the value beneath it: it
terminates the run with DivisionByZero when x = 0, and pushes
Int(y / x) (truncated division) when x ≠ 0, except for the Rust overflow
panic at y = i64::MIN, x = -1. -/
theorem C1_div_amended (r : Int) (s : VMState) (x y : Int) (rest : List StackValue)
    (hip : s.ip < s.instructions.length)
    (hbyte : s.instructions.getD s.ip 0 = 7)
    (hstk : s.stack = .Int y :: .Int x :: rest) :
    (x = 0 → step r s = .error .DivisionByZero
      { s with stack := rest, ip := s.ip + 1 }) ∧
    (x ≠ 0 → ¬(y = i64Min ∧ x = -1) →
      step r s = .continu
        { s with stack := .Int (Int.tdiv y x) :: rest, ip := s.ip + 1 }) := by
  have hdec : instructionFromByte (s.instructions.getD s.ip 0) = some .Div := by
    rw [hbyte]; rfl
  constructor
  · intro hx
    subst hx
    rw [step_eq_arm hip hdec (by decide)]
    simp [execInstr, divArm, pop_val, hstk, liftArm]
  · intro hx hmin
    rw [step_eq_arm hip hdec (by decide)]
    simp [execInstr, divArm, pop_val, hstk, hx, hmin, liftArm]

/-- Claim C1, witness for the amended theorem at a concrete state:
dividing top 7 by the 2 beneath it yields 3, and a zero beneath the top
yields DivisionByZero. -/
theorem C1_div_amended_witness :
    step 0 ⟨[7], [.Int 7, .Int 2], [], 0⟩ =
      .continu ⟨[7], [.Int 3], [], 1⟩ ∧
    step 0 ⟨[7], [.Int 7, .Int 0], [], 0⟩ =
      .error .DivisionByZero ⟨[7], [], [], 1⟩ := by
  constructor
  · have h := (C1_div_amended 0 ⟨[7], [.Int 7, .Int 2], [], 0⟩ 2 7 []
      (by decide) (by decide) rfl).2 (by decide) (by decide)
    simpa using h
  · have h := (C1_div_amended 0 ⟨[7], [.Int 7, .Int 0], [], 0⟩ 0 7 []
      (by decide) (by decide) rfl).1 rfl
    simpa using h

/-- Claim C2, counterexample: decoding the opcode byte 24 makes the run
panic (the `From<u8>` conversion has a `panic!` arm), and reading a LoadVal
immediate past the end of the stream also panics; neither produces the
UnknownInstruction error the claim demands. -/
theorem C2_counterexample :
    interpretFuel (fun _ => 0) 2 (VMState.new [24]) = .crash ∧
    interpretFuel (fun _ => 0) 2 (VMState.new [0, 1, 2]) = .crash ∧
    RunResult.crash ≠ RunResult.err .UnknownInstruction := by
  exact ⟨by decide, by decide, by decide⟩

/-- Claim C2, amended: a decode failure panics instead of returning
UnknownInstruction: an opcode byte outside 0..=23 maps to the `panic!` arm,
every decoder primitive (read_byte, read_string, read_long) panics when it
would read past the end of the stream, and none of those primitives can
return an error value at all; in particular the literal transcription of
read_long that keeps the source's `Err(StackOverflow)` arm of the
`try_into` match coincides with read_long, so that arm is dead code. -/
theorem C2_decode_amended :
    (∀ b : Nat, 24 ≤ b → instructionFromByte b = none) ∧
    (∀ r : Int, ∀ s : VMState, s.ip < s.instructions.length →
      24 ≤ s.instructions.getD s.ip 0 → step r s = .crash) ∧
    (∀ s : VMState, s.instructions.length ≤ s.ip → read_byte s = .crash) ∧
    (∀ s : VMState, s.instructions.length < s.ip + 4 → read_string s = .crash) ∧
    (∀ s : VMState, s.instructions.length < s.ip + 8 → read_long s = .crash) ∧
    (∀ s : VMState, ∀ e : VMError, ∀ s1 : VMState, read_byte s ≠ .err e s1) ∧
    (∀ s : VMState, ∀ e : VMError, ∀ s1 : VMState, read_string s ≠ .err e s1) ∧
    (∀ s : VMState, ∀ e : VMError, ∀ s1 : VMState, read_long s ≠ .err e s1) ∧
    (∀ s : VMState, read_long_literal s = read_long s) := by
  refine ⟨fun b hb => instructionFromByte_none hb, ?_, ?_, ?_, ?_, ?_, ?_, ?_, ?_⟩
  · intro r s hip hb
    unfold step
    rw [if_neg (by omega), instructionFromByte_none hb]
  · intro s hle
    unfold read_byte
    rw [if_neg (by omega)]
  · intro s hlt
    unfold read_string
    rw [if_neg (by omega)]
  · intro s hlt
    unfold read_long
    rw [if_neg (by omega)]
  · intro s e s1 h
    exact read_byte_no_err h
  · intro s e s1 h
    exact read_string_no_err h
  · intro s e s1 h
    exact read_long_no_err h
  · intro s
    unfold read_long_literal read_long
    by_cases hc : s.ip + 8 ≤ s.instructions.length
    · simp only [if_pos hc]
      have hl : ((s.instructions.drop s.ip).take 8).length = 8 := by
        rw [List.length_take, List.length_drop]
        omega
      rw [if_pos hl]
    · simp only [if_neg hc]

/-- Claim C2, witness for the amended theorem at concrete inputs: byte 24
decodes to the panic arm, a step on it panics, each primitive panics at
the end of a one-byte stream, and the literal read_long with the dead
error arm agrees with read_long on a stream with room for a long. -/
theorem C2_decode_amended_witness :
    instructionFromByte 24 = none ∧
    step 0 ⟨[24], [], [], 0⟩ = .crash ∧
    read_byte ⟨[7], [], [], 1⟩ = .crash ∧
    read_string ⟨[7], [], [], 0⟩ = .crash ∧
    read_long ⟨[7], [], [], 0⟩ = .crash ∧
    read_long_literal ⟨[1, 2, 3, 4, 5, 6, 7, 8], [], [], 0⟩ =
      read_long ⟨[1, 2, 3, 4, 5, 6, 7, 8], [], [], 0⟩ := by
  refine ⟨C2_decode_amended.1 24 (by decide),
    C2_decode_amended.2.1 0 ⟨[24], [], [], 0⟩ (by decide) (by decide),
    C2_decode_amended.2.2.1 ⟨[7], [], [], 1⟩ (by decide),
    C2_decode_amended.2.2.2.1 ⟨[7], [], [], 0⟩ (by decide),
    C2_decode_amended.2.2.2.2.1 ⟨[7], [], [], 0⟩ (by decide),
    C2_decode_amended.2.2.2.2.2.2.2.2 ⟨[1, 2, 3, 4, 5, 6, 7, 8], [], [], 0⟩⟩

/-- Claim C3, counterexample: with stack top Int(6) beneath Int(5) pushed by
the embedder, SendChannel reaches pop_channel on an Int top and the run
fails with StackUnderflow, not UnwrapError; with a Channel on top, an Add
reaches pop_val on the Channel and the run panics in the
`Into<i64>` conversion, not UnwrapError. -/
theorem C3_counterexample :
    interpretFuel (fun _ => 0) 2 ⟨[19], [.Int 5, .Int 6], [], 0⟩ =
      .err .StackUnderflow ∧
    interpretFuel (fun _ => 0) 2 ⟨[4], [.Channel 0, .Int 1], [], 0⟩ = .crash ∧
    RunResult.err .StackUnderflow ≠ RunResult.err .UnwrapError ∧
    RunResult.crash ≠ RunResult.err .UnwrapError := by
  exact ⟨by decide, by decide, by decide, by decide⟩

/-- Claim C3, amended: wrong-variant pops never produce UnwrapError:
pop_val on a stack whose top is a Channel panics in the `Into<i64>`
conversion, pop_channel on a stack whose top is an Int pops and drops the
value and returns StackUnderflow, and neither primitive can return any
error other than StackUnderflow. -/
theorem C3_pop_amended :
    (∀ s : VMState, ∀ c : Nat, ∀ tail : List StackValue,
      s.stack = .Channel c :: tail → pop_val s = .crash) ∧
    (∀ s : VMState, ∀ v : Int, ∀ tail : List StackValue,
      s.stack = .Int v :: tail →
        pop_channel s = .err .StackUnderflow { s with stack := tail }) ∧
    (∀ s s1 : VMState, ∀ e : VMError, pop_val s = .err e s1 →
      e = .StackUnderflow) ∧
    (∀ s s1 : VMState, ∀ e : VMError, pop_channel s = .err e s1 →
      e = .StackUnderflow) := by
  refine ⟨?_, ?_, ?_, ?_⟩
  · intro s c tail hstk
    unfold pop_val
    rw [hstk]
  · intro s v tail hstk
    unfold pop_channel
    rw [hstk]
  · intro s s1 e h
    exact (pop_val_err_facts h).1
  · intro s s1 e h
    exact (pop_channel_err_facts h).1

/-- Claim C3, witness for the amended theorem at concrete stacks. -/
theorem C3_pop_amended_witness :
    pop_val ⟨[], [.Channel 3], [], 0⟩ = .crash ∧
    pop_channel ⟨[], [.Int 9], [], 0⟩ =
      .err .StackUnderflow ⟨[], [], [], 0⟩ := by
  constructor
  · exact C3_pop_amended.1 ⟨[], [.Channel 3], [], 0⟩ 3 [] rfl
  · have h := C3_pop_amended.2.1 ⟨[], [.Int 9], [], 0⟩ 9 [] rfl
    simpa using h

/-- Claim C4: the operand stack depth is at most 65,535 in every state the
dispatch loop reaches from a fresh VM; any single step (continuing or
finishing) started within the bound stays within it; and the guarded push
at a depth of exactly 65,535 fails with StackOverflow returning the state
unchanged. -/
theorem C4_stack_bound :
    (∀ prog : List Nat, ∀ s : VMState, Reaches (VMState.new prog) s →
      s.stack.length ≤ MAX_STACK_SIZE) ∧
    (∀ r : Int, ∀ s s1 : VMState, s.stack.length ≤ MAX_STACK_SIZE →
      (step r s = .continu s1 ∨ step r s = .finished s1) →
      s1.stack.length ≤ MAX_STACK_SIZE) ∧
    (∀ s : VMState, ∀ v : Int, s.stack.length = MAX_STACK_SIZE →
      push_val s v = .err .StackOverflow s) := by
  refine ⟨?_, ?_, ?_⟩
  · intro prog s h
    exact reaches_bound h (by simp [VMState.new])
  · intro r s s1 hb h
    exact step_bound h hb
  · intro s v hlen
    unfold push_val
    rw [if_neg (by omega)]

/-- Claim C4, witness: a fresh VM is within the bound, a concrete Jump step
stays within it, and a push onto a stack of depth exactly 65,535 fails with
StackOverflow leaving the state unchanged. -/
theorem C4_stack_bound_witness :
    (VMState.new [9, 5]).stack.length ≤ MAX_STACK_SIZE ∧
    ((⟨[9, 5], [], [], 7⟩ : VMState).stack.length ≤ MAX_STACK_SIZE) ∧
    push_val ⟨[], List.replicate 65535 (.Int 0), [], 0⟩ 1 =
      .err .StackOverflow ⟨[], List.replicate 65535 (.Int 0), [], 0⟩ := by
  refine ⟨C4_stack_bound.1 [9, 5] (VMState.new [9, 5]) (Reaches.refl _),
    C4_stack_bound.2.1 0 (VMState.new [9, 5]) ⟨[9, 5], [], [], 7⟩
      (by decide) (Or.inl (by decide)), ?_⟩
  exact C4_stack_bound.2.2 ⟨[], List.replicate 65535 (.Int 0), [], 0⟩ 1
    (by show (List.replicate 65535 (StackValue.Int 0)).length = MAX_STACK_SIZE
        rw [List.length_replicate]
        rfl)

/-- Claim C5: the dispatch loop ends exactly on executing Finish or on the
instruction pointer reaching the end of the stream (the latter without
error); whenever a step finishes, the interpreter returns the final pop of
the resulting state; the final pop of an empty stack is the StackUnderflow
error and the final pop of an Int top is that integer. -/
theorem C5_termination :
    (∀ r : Int, ∀ s : VMState, s.instructions.length ≤ s.ip →
      step r s = .finished s) ∧
    (∀ r : Int, ∀ s : VMState, s.ip < s.instructions.length →
      s.instructions.getD s.ip 0 = 23 →
      step r s = .finished { s with ip := s.ip + 1 }) ∧
    (∀ r : Int, ∀ s s1 : VMState, step r s = .finished s1 →
      (s.instructions.length ≤ s.ip ∧ s1 = s) ∨
      (s.ip < s.instructions.length ∧ s.instructions.getD s.ip 0 = 23 ∧
        s1 = { s with ip := s.ip + 1 })) ∧
    (∀ oracle : Nat → Int, ∀ n : Nat, ∀ s s1 : VMState,
      step (oracle n) s = .finished s1 →
      interpretFuel oracle (n + 1) s = finalPop s1) ∧
    (∀ s : VMState, s.stack = [] → finalPop s = .err .StackUnderflow) ∧
    (∀ s : VMState, ∀ v : Int, ∀ tail : List StackValue,
      s.stack = .Int v :: tail → finalPop s = .ok v) := by
  refine ⟨?_, ?_, ?_, ?_, ?_, ?_⟩
  · intro r s h
    exact step_end_finished h
  · intro r s h1 h2
    exact step_byte_finish h1 h2
  · intro r s s1 h
    exact step_finished_facts h
  · intro oracle n s s1 h
    exact interpretFuel_finished h
  · intro s h
    unfold finalPop pop_val
    rw [h]
  · intro s v tail h
    unfold finalPop pop_val
    rw [h]

/-- Claim C5, witness at concrete states: running off the end finishes, a
Finish byte finishes, a finished step is one of the two loop exits, the
finished step makes the interpreter return the final pop, and the final pop
behaves as claimed on an empty stack and on an Int top. -/
theorem C5_termination_witness :
    step 0 ⟨[23], [], [], 5⟩ = .finished ⟨[23], [], [], 5⟩ ∧
    step 0 ⟨[23], [.Int 4], [], 0⟩ = .finished ⟨[23], [.Int 4], [], 1⟩ ∧
    (((⟨[23], [], [], 5⟩ : VMState).instructions.length ≤ 5 ∧
        (⟨[23], [], [], 5⟩ : VMState) = ⟨[23], [], [], 5⟩) ∨
      (5 < (⟨[23], [], [], 5⟩ : VMState).instructions.length ∧
        (⟨[23], [], [], 5⟩ : VMState).instructions.getD 5 0 = 23 ∧
        (⟨[23], [], [], 5⟩ : VMState) = ⟨[23], [], [], 5 + 1⟩)) ∧
    interpretFuel (fun _ => 0) 1 ⟨[23], [.Int 4], [], 0⟩ =
      finalPop ⟨[23], [.Int 4], [], 1⟩ ∧
    finalPop ⟨[], [], [], 0⟩ = .err .StackUnderflow ∧
    finalPop ⟨[], [.Int 4], [], 0⟩ = .ok 4 := by
  refine ⟨C5_termination.1 0 ⟨[23], [], [], 5⟩ (by decide), ?_, ?_, ?_, ?_, ?_⟩
  · have h := C5_termination.2.1 0 ⟨[23], [.Int 4], [], 0⟩ (by decide) (by decide)
    simpa using h
  · have h := C5_termination.2.2.1 0 ⟨[23], [], [], 5⟩ ⟨[23], [], [], 5⟩
      (C5_termination.1 0 ⟨[23], [], [], 5⟩ (by decide))
    simpa using h
  · have h2 : step ((fun _ => (0 : Int)) 0) ⟨[23], [.Int 4], [], 0⟩ =
        .finished ⟨[23], [.Int 4], [], 1⟩ := by decide
    exact C5_termination.2.2.2.1 (fun _ => 0) 0 ⟨[23], [.Int 4], [], 0⟩
      ⟨[23], [.Int 4], [], 1⟩ h2
  · exact C5_termination.2.2.2.2.1 ⟨[], [], [], 0⟩ rfl
  · exact C5_termination.2.2.2.2.2 ⟨[], [.Int 4], [], 0⟩ 4 [] rfl

/-- Claim C7, counterexample: with x = i64::MIN pushed and y = -1 on top,
y is nonzero and the claim demands that Mod push Int(x mod y) = Int(0); the
Rust remainder operator instead panics on the overflow pair MIN % -1, so
the run aborts rather than completing with 0. -/
theorem C7_counterexample :
    interpretFuel (fun _ => 0) 5 (VMState.new
      [0,0,0,0,0,0,0,0,128, 0,255,255,255,255,255,255,255,255, 8, 23]) =
      .crash ∧
    RunResult.crash ≠ RunResult.ok 0 := by
  exact ⟨by decide, by decide⟩

/-- Claim C7, amended: for a stack holding Int(x) then Int(y) pushed in that
order (Int(y) on top), Add pushes Int(x+y), Sub pushes Int(x-y), Mul pushes
Int(x*y), each wrapping modulo 2^64 under two's-complement signed
interpretation, and Mod pushes Int(x mod y) with truncated semantics when
y is nonzero and the pair is not the Rust remainder-overflow case
(x, y) = (i64::MIN, -1), which panics. -/
theorem C7_arith_amended (r : Int) (s : VMState) (x y : Int)
    (rest : List StackValue)
    (hip : s.ip < s.instructions.length)
    (hstk : s.stack = .Int y :: .Int x :: rest) :
    (s.instructions.getD s.ip 0 = 4 →
      step r s = .continu
        { s with stack := .Int (wrap64 (x + y)) :: rest, ip := s.ip + 1 }) ∧
    (s.instructions.getD s.ip 0 = 5 →
      step r s = .continu
        { s with stack := .Int (wrap64 (x - y)) :: rest, ip := s.ip + 1 }) ∧
    (s.instructions.getD s.ip 0 = 6 →
      step r s = .continu
        { s with stack := .Int (wrap64 (x * y)) :: rest, ip := s.ip + 1 }) ∧
    (s.instructions.getD s.ip 0 = 8 → y ≠ 0 → ¬(x = i64Min ∧ y = -1) →
      step r s = .continu
        { s with stack := .Int (Int.tmod x y) :: rest, ip := s.ip + 1 }) := by
  refine ⟨?_, ?_, ?_, ?_⟩
  · intro hbyte
    have hdec : instructionFromByte (s.instructions.getD s.ip 0) = some .Add := by
      rw [hbyte]; rfl
    rw [step_eq_arm hip hdec (by decide)]
    simp [execInstr, nativeArm, pop_val, hstk, liftArm]
  · intro hbyte
    have hdec : instructionFromByte (s.instructions.getD s.ip 0) = some .Sub := by
      rw [hbyte]; rfl
    rw [step_eq_arm hip hdec (by decide)]
    simp [execInstr, nativeArm, pop_val, hstk, liftArm]
  · intro hbyte
    have hdec : instructionFromByte (s.instructions.getD s.ip 0) = some .Mul := by
      rw [hbyte]; rfl
    rw [step_eq_arm hip hdec (by decide)]
    simp [execInstr, nativeArm, pop_val, hstk, liftArm]
  · intro hbyte hy hmin
    have hdec : instructionFromByte (s.instructions.getD s.ip 0) = some .Mod := by
      rw [hbyte]; rfl
    rw [step_eq_arm hip hdec (by decide)]
    simp [execInstr, modArm, pop_val, hstk, liftArm, hy, hmin]

/-- Claim C7, witness for the amended theorem at concrete states:
3 + 4 = 7, 3 - 4 = -1, 3 * 4 = 12, and 14 mod 4 = 2 with the expected
wrapping and truncated semantics. -/
theorem C7_arith_amended_witness :
    step 0 ⟨[4], [.Int 4, .Int 3], [], 0⟩ =
      .continu ⟨[4], [.Int 7], [], 1⟩ ∧
    step 0 ⟨[5], [.Int 4, .Int 3], [], 0⟩ =
      .continu ⟨[5], [.Int (-1)], [], 1⟩ ∧
    step 0 ⟨[6], [.Int 4, .Int 3], [], 0⟩ =
      .continu ⟨[6], [.Int 12], [], 1⟩ ∧
    step 0 ⟨[8], [.Int 4, .Int 14], [], 0⟩ =
      .continu ⟨[8], [.Int 2], [], 1⟩ := by
  refine ⟨?_, ?_, ?_, ?_⟩
  · have h := (C7_arith_amended 0 ⟨[4], [.Int 4, .Int 3], [], 0⟩ 3 4 []
      (by decide) rfl).1 rfl
    simpa using h
  · have h := (C7_arith_amended 0 ⟨[5], [.Int 4, .Int 3], [], 0⟩ 3 4 []
      (by decide) rfl).2.1 rfl
    simpa using h
  · have h := (C7_arith_amended 0 ⟨[6], [.Int 4, .Int 3], [], 0⟩ 3 4 []
      (by decide) rfl).2.2.1 rfl
    simpa using h
  · have h := (C7_arith_amended 0 ⟨[8], [.Int 4, .Int 14], [], 0⟩ 14 4 []
      (by decide) rfl).2.2.2 rfl (by decide) (by decide)
    simpa using h

/-- Claim C8, counterexample: Mod with a zero divisor (the program pushes 1
then 0, so 0 is the divisor on top) makes the Rust `%` operator panic and
the run abort; it does not return the DivisionByZero error the claim
demands for both Div and Mod. -/
theorem C8_counterexample :
    interpretFuel (fun _ => 0) 5 (VMState.new
      [0,1,0,0,0,0,0,0,0, 0,0,0,0,0,0,0,0,0, 8, 23]) = .crash ∧
    RunResult.crash ≠ RunResult.err .DivisionByZero := by
  exact ⟨by decide, by decide⟩

/-- Claim C8, amended: only Div traps a zero divisor by returning the
DivisionByZero error to the embedder (its divisor is the value beneath the
top); Mod with a zero divisor (its divisor is the value on top) panics in
the Rust `%` operator, aborting the run instead of returning an error. -/
theorem C8_divmod_zero_amended :
    (∀ r : Int, ∀ s : VMState, ∀ y : Int, ∀ rest : List StackValue,
      s.ip < s.instructions.length → s.instructions.getD s.ip 0 = 7 →
      s.stack = .Int y :: .Int 0 :: rest →
      step r s = .error .DivisionByZero
        { s with stack := rest, ip := s.ip + 1 }) ∧
    (∀ r : Int, ∀ s : VMState, ∀ x : Int, ∀ rest : List StackValue,
      s.ip < s.instructions.length → s.instructions.getD s.ip 0 = 8 →
      s.stack = .Int 0 :: .Int x :: rest →
      step r s = .crash) := by
  constructor
  · intro r s y rest hip hbyte hstk
    have hdec : instructionFromByte (s.instructions.getD s.ip 0) = some .Div := by
      rw [hbyte]; rfl
    rw [step_eq_arm hip hdec (by decide)]
    simp [execInstr, divArm, pop_val, hstk, liftArm]
  · intro r s x rest hip hbyte hstk
    have hdec : instructionFromByte (s.instructions.getD s.ip 0) = some .Mod := by
      rw [hbyte]; rfl
    rw [step_eq_arm hip hdec (by decide)]
    simp [execInstr, modArm, pop_val, hstk, liftArm]

/-- Claim C8, witness for the amended theorem at concrete states: Div over
a zero divisor errors with DivisionByZero, Mod over a zero divisor panics. -/
theorem C8_divmod_zero_amended_witness :
    step 0 ⟨[7], [.Int 9, .Int 0], [], 0⟩ =
      .error .DivisionByZero ⟨[7], [], [], 1⟩ ∧
    step 0 ⟨[8], [.Int 0, .Int 9], [], 0⟩ = .crash := by
  constructor
  · have h := C8_divmod_zero_amended.1 0 ⟨[7], [.Int 9, .Int 0], [], 0⟩ 9 []
      (by decide) (by decide) rfl
    simpa using h
  · exact C8_divmod_zero_amended.2 0 ⟨[8], [.Int 0, .Int 9], [], 0⟩ 9 []
      (by decide) (by decide) rfl

/-- Claim C9: for a stack holding Int(x) then Int(y) pushed in that order
(Int(y) on top), each relational opcode pops both operands and pushes
Int(1) when the predicate holds of x compared against y and Int(0)
otherwise (Eq tests x = y, NotEq tests x ≠ y, Lt tests x < y, Gt tests
x > y, Lte tests x ≤ y, Gte tests x ≥ y), leaving the rest of the stack
unchanged. -/
theorem C9_comparisons (r : Int) (s : VMState) (x y : Int)
    (rest : List StackValue)
    (hip : s.ip < s.instructions.length)
    (hstk : s.stack = .Int y :: .Int x :: rest) :
    (s.instructions.getD s.ip 0 = 14 →
      step r s = .continu
        { s with stack := .Int (if x = y then 1 else 0) :: rest, ip := s.ip + 1 }) ∧
    (s.instructions.getD s.ip 0 = 13 →
      step r s = .continu
        { s with stack := .Int (if x ≠ y then 1 else 0) :: rest, ip := s.ip + 1 }) ∧
    (s.instructions.getD s.ip 0 = 16 →
      step r s = .continu
        { s with stack := .Int (if x < y then 1 else 0) :: rest, ip := s.ip + 1 }) ∧
    (s.instructions.getD s.ip 0 = 15 →
      step r s = .continu
        { s with stack := .Int (if x > y then 1 else 0) :: rest, ip := s.ip + 1 }) ∧
    (s.instructions.getD s.ip 0 = 18 →
      step r s = .continu
        { s with stack := .Int (if x ≤ y then 1 else 0) :: rest, ip := s.ip + 1 }) ∧
    (s.instructions.getD s.ip 0 = 17 →
      step r s = .continu
        { s with stack := .Int (if x ≥ y then 1 else 0) :: rest, ip := s.ip + 1 }) := by
  refine ⟨?_, ?_, ?_, ?_, ?_, ?_⟩
  · intro hbyte
    have hdec : instructionFromByte (s.instructions.getD s.ip 0) = some .Eq := by
      rw [hbyte]; rfl
    rw [step_eq_arm hip hdec (by decide)]
    simp [execInstr, nativeArm, pop_val, hstk, liftArm]
  · intro hbyte
    have hdec : instructionFromByte (s.instructions.getD s.ip 0) = some .NotEq := by
      rw [hbyte]; rfl
    rw [step_eq_arm hip hdec (by decide)]
    simp [execInstr, nativeArm, pop_val, hstk, liftArm]
  · intro hbyte
    have hdec : instructionFromByte (s.instructions.getD s.ip 0) = some .Lt := by
      rw [hbyte]; rfl
    rw [step_eq_arm hip hdec (by decide)]
    simp [execInstr, nativeArm, pop_val, hstk, liftArm]
  · intro hbyte
    have hdec : instructionFromByte (s.instructions.getD s.ip 0) = some .Gt := by
      rw [hbyte]; rfl
    rw [step_eq_arm hip hdec (by decide)]
    simp [execInstr, nativeArm, pop_val, hstk, liftArm]
  · intro hbyte
    have hdec : instructionFromByte (s.instructions.getD s.ip 0) = some .Lte := by
      rw [hbyte]; rfl
    rw [step_eq_arm hip hdec (by decide)]
    simp [execInstr, nativeArm, pop_val, hstk, liftArm]
  · intro hbyte
    have hdec : instructionFromByte (s.instructions.getD s.ip 0) = some .Gte := by
      rw [hbyte]; rfl
    rw [step_eq_arm hip hdec (by decide)]
    simp [execInstr, nativeArm, pop_val, hstk, liftArm]

/-- Claim C9, witness at concrete states: with 3 pushed then 5 on top,
Eq gives 0, NotEq gives 1, Lt gives 1, Gt gives 0, Lte gives 1, Gte
gives 0. -/
theorem C9_comparisons_witness :
    step 0 ⟨[14], [.Int 5, .Int 3], [], 0⟩ = .continu ⟨[14], [.Int 0], [], 1⟩ ∧
    step 0 ⟨[13], [.Int 5, .Int 3], [], 0⟩ = .continu ⟨[13], [.Int 1], [], 1⟩ ∧
    step 0 ⟨[16], [.Int 5, .Int 3], [], 0⟩ = .continu ⟨[16], [.Int 1], [], 1⟩ ∧
    step 0 ⟨[15], [.Int 5, .Int 3], [], 0⟩ = .continu ⟨[15], [.Int 0], [], 1⟩ ∧
    step 0 ⟨[18], [.Int 5, .Int 3], [], 0⟩ = .continu ⟨[18], [.Int 1], [], 1⟩ ∧
    step 0 ⟨[17], [.Int 5, .Int 3], [], 0⟩ = .continu ⟨[17], [.Int 0], [], 1⟩ := by
  refine ⟨?_, ?_, ?_, ?_, ?_, ?_⟩
  · have h := (C9_comparisons 0 ⟨[14], [.Int 5, .Int 3], [], 0⟩ 3 5 []
      (by decide) rfl).1 rfl
    simpa using h
  · have h := (C9_comparisons 0 ⟨[13], [.Int 5, .Int 3], [], 0⟩ 3 5 []
      (by decide) rfl).2.1 rfl
    simpa using h
  · have h := (C9_comparisons 0 ⟨[16], [.Int 5, .Int 3], [], 0⟩ 3 5 []
      (by decide) rfl).2.2.1 rfl
    simpa using h
  · have h := (C9_comparisons 0 ⟨[15], [.Int 5, .Int 3], [], 0⟩ 3 5 []
      (by decide) rfl).2.2.2.1 rfl
    simpa using h
  · have h := (C9_comparisons 0 ⟨[18], [.Int 5, .Int 3], [], 0⟩ 3 5 []
      (by decide) rfl).2.2.2.2.1 rfl
    simpa using h
  · have h := (C9_comparisons 0 ⟨[17], [.Int 5, .Int 3], [], 0⟩ 3 5 []
      (by decide) rfl).2.2.2.2.2 rfl
    simpa using h

theorem lookupVar_cons_ne {k n : List Nat} {v : Int}
    {t : List (List Nat × Int)} (h : k ≠ n) :
    lookupVar ((k, v) :: t) n = lookupVar t n := by
  show (if k = n then some v else lookupVar t n) = lookupVar t n
  rw [if_neg h]

/-- Claim C10: every instruction other than WriteVar leaves the variable
environment unchanged — any step (continuing or finishing) whose decoded
opcode is not WriteVar preserves the name-to-integer mapping — and a
WriteVar step changes at most the binding of its own four-byte operand
name. -/
theorem C10_variables :
    (∀ r : Int, ∀ s s1 : VMState,
      (step r s = .continu s1 ∨ step r s = .finished s1) →
      (∀ i, instructionFromByte (s.instructions.getD s.ip 0) = some i →
        i ≠ Instruction.WriteVar) →
      s1.vars = s.vars) ∧
    (∀ r : Int, ∀ s s1 : VMState, s.ip < s.instructions.length →
      s.instructions.getD s.ip 0 = 1 → step r s = .continu s1 →
      ∀ n : List Nat, n ≠ (s.instructions.drop (s.ip + 1)).take 4 →
        lookupVar s1.vars n = lookupVar s.vars n) := by
  constructor
  · intro r s s1 h hne
    exact step_vars_unchanged h hne
  · intro r s s1 hip hbyte hstep n hn
    have hdec : instructionFromByte (s.instructions.getD s.ip 0) =
        some .WriteVar := by
      rw [hbyte]; rfl
    rw [step_eq_arm hip hdec (by decide)] at hstep
    have h2 := liftArm_eq_continu hstep
    simp only [execInstr] at h2
    split at h2
    · simp at h2
    · simp at h2
    · rename_i nm sA hA
      split at h2
      · simp at h2
      · simp at h2
      · rename_i v sB hB
        injection h2 with h3
        obtain ⟨hA1, hA2, hA3⟩ := read_string_ok_facts hA
        obtain ⟨hB1, hB2, hB3, hB4⟩ := pop_val_ok_facts hB
        have hnm : nm = (s.instructions.drop (s.ip + 1)).take 4 := by
          simpa using hA2
        have hvars : s1.vars = (nm, v) :: sB.vars := by rw [← h3]
        have hsB : sB.vars = s.vars := by
          rw [hB2]
          simp [hA3]
        rw [hvars, hsB, lookupVar_cons_ne (by rw [hnm]; exact fun he => hn he.symm)]

/-- Claim C10, witness at concrete states: a Jump step leaves the variable
table unchanged, and after a WriteVar binding the name 10-11-12-13, the
lookup of a different name still consults the old table. -/
theorem C10_variables_witness :
    (⟨[9, 5], [], [], 7⟩ : VMState).vars = (⟨[9, 5], [], [], 0⟩ : VMState).vars ∧
    lookupVar (⟨[1, 10, 11, 12, 13], [], [([10, 11, 12, 13], 5)], 5⟩ :
        VMState).vars [9, 9, 9, 9] =
      lookupVar (⟨[1, 10, 11, 12, 13], [.Int 5], [], 0⟩ :
        VMState).vars [9, 9, 9, 9] := by
  constructor
  · refine C10_variables.1 0 ⟨[9, 5], [], [], 0⟩ ⟨[9, 5], [], [], 7⟩
      (Or.inl (by decide)) ?_
    intro i hi
    have h2 : some Instruction.Jump = some i := hi
    injection h2 with h3
    subst h3
    decide
  · exact C10_variables.2 0 ⟨[1, 10, 11, 12, 13], [.Int 5], [], 0⟩
      ⟨[1, 10, 11, 12, 13], [], [([10, 11, 12, 13], 5)], 5⟩
      (by decide) (by decide) (by decide) [9, 9, 9, 9] (by decide)

theorem encodeLE8_length (v : Int) : (encodeLE8 v).length = 8 := by
  simp [encodeLE8]

theorem bytesToI64_encodeLE8 {v : Int} (h1 : i64Min ≤ v) (h2 : v < 2 ^ 63) :
    bytesToI64 (encodeLE8 v) = v := by
  have h1a : -((2 : Int) ^ 63) ≤ v := h1
  have hv0 : (0 : Int) ≤ v % (2 : Int) ^ 64 := Int.emod_nonneg v (by norm_num)
  have hnn : (((v % (2 : Int) ^ 64).toNat : Int)) = v % (2 : Int) ^ 64 :=
    Int.toNat_of_nonneg hv0
  simp only [bytesToI64, encodeLE8, leValue, toSigned64]
  split <;> omega

theorem read_long_at (pre tail : List Nat) (v : Int) (stk : List StackValue)
    (va : List (List Nat × Int)) (h1 : i64Min ≤ v) (h2 : v < 2 ^ 63) :
    read_long ⟨pre ++ (encodeLE8 v ++ tail), stk, va, pre.length⟩ =
      .ok v ⟨pre ++ (encodeLE8 v ++ tail), stk, va, pre.length + 8⟩ := by
  simp only [read_long]
  rw [if_pos (by simp [encodeLE8_length])]
  rw [List.drop_left, List.take_left' (encodeLE8_length v),
    bytesToI64_encodeLE8 h1 h2]

theorem readArgs_encoded :
    ∀ (args : List Int) (pre post : List Nat) (stk : List StackValue)
      (va : List (List Nat × Int)),
      (∀ a ∈ args, i64Min ≤ a ∧ a < 2 ^ 63) →
      stk.length + args.length ≤ MAX_STACK_SIZE →
      readArgs args.length
        ⟨pre ++ ((args.map encodeLE8).join ++ post), stk, va, pre.length⟩ =
        .ok () ⟨pre ++ ((args.map encodeLE8).join ++ post),
          (args.reverse.map StackValue.Int) ++ stk, va,
          pre.length + 8 * args.length⟩ := by
  intro args
  induction args with
  | nil =>
    intro pre post stk va hr hb
    simp [readArgs]
  | cons a as ih =>
    intro pre post stk va hr hb
    have hJ : ((a :: as).map encodeLE8).join =
        encodeLE8 a ++ (as.map encodeLE8).join := by simp
    have hra := hr a (by simp)
    rw [show (a :: as).length = as.length + 1 from rfl]
    unfold readArgs
    rw [hJ, List.append_assoc]
    rw [read_long_at pre ((as.map encodeLE8).join ++ post) a stk va hra.1 hra.2]
    dsimp only
    have hpush : push_val
        ⟨pre ++ (encodeLE8 a ++ ((as.map encodeLE8).join ++ post)), stk, va,
          pre.length + 8⟩ a =
        .ok () ⟨pre ++ (encodeLE8 a ++ ((as.map encodeLE8).join ++ post)),
          .Int a :: stk, va, pre.length + 8⟩ := by
      unfold push_val
      rw [if_pos (by simp at hb ⊢; omega)]
    rw [hpush]
    dsimp only
    have hroom2 : (StackValue.Int a :: stk).length + as.length ≤ MAX_STACK_SIZE := by
      simp at hb ⊢
      omega
    have hih := ih (pre ++ encodeLE8 a) post (.Int a :: stk) va
      (fun x hx => hr x (by simp [hx])) hroom2
    rw [List.append_assoc, List.length_append, encodeLE8_length] at hih
    rw [hih]
    congr 1
    apply VMState.eq_of_fields
    · rfl
    · simp
    · rfl
    · simp
      omega

theorem read_byte_at (ins : List Nat) (stk : List StackValue)
    (va : List (List Nat × Int)) (k : Nat) (hk : k < ins.length) :
    read_byte ⟨ins, stk, va, k⟩ = .ok (ins.getD k 0) ⟨ins, stk, va, k + 1⟩ := by
  unfold read_byte
  rw [if_pos hk]

/-- Claim C6: a FuncCall instruction reads a two-byte big-endian target
offset, then a one-byte argument count, then that many eight-byte
little-endian signed integers from the instruction stream, pushes each
argument as Int in stream order (the last argument read ends on top of the
stack), and finally sets the instruction pointer to the target offset. -/
theorem C6_funccall (r : Int) (pre post : List Nat) (hi lo : Nat)
    (args : List Int) (stk : List StackValue) (va : List (List Nat × Int))
    (hhi : hi < 256) (hlo : lo < 256) (hn : args.length < 256)
    (hargs : ∀ a ∈ args, i64Min ≤ a ∧ a < 2 ^ 63)
    (hroom : stk.length + args.length ≤ MAX_STACK_SIZE) :
    step r ⟨pre ++ (3 :: hi :: lo :: args.length ::
        ((args.map encodeLE8).join ++ post)), stk, va, pre.length⟩ =
      .continu ⟨pre ++ (3 :: hi :: lo :: args.length ::
        ((args.map encodeLE8).join ++ post)),
        (args.reverse.map StackValue.Int) ++ stk, va, 256 * hi + lo⟩ := by
  have hlen : (pre ++ (3 :: hi :: lo :: args.length ::
      ((args.map encodeLE8).join ++ post))).length =
      pre.length + (((args.map encodeLE8).join ++ post).length + 4) := by
    simp
  have hip : pre.length < (pre ++ (3 :: hi :: lo :: args.length ::
      ((args.map encodeLE8).join ++ post))).length := by
    rw [hlen]; omega
  have hb0 : (pre ++ (3 :: hi :: lo :: args.length ::
      ((args.map encodeLE8).join ++ post))).getD pre.length 0 = 3 := by
    rw [List.getD_append_right _ _ _ _ (by omega)]
    have e : pre.length - pre.length = 0 := by omega
    rw [e]
    rfl
  have hdec : instructionFromByte ((pre ++ (3 :: hi :: lo :: args.length ::
      ((args.map encodeLE8).join ++ post))).getD pre.length 0) =
      some .FuncCall := by
    rw [hb0]
    rfl
  rw [step_eq_arm hip hdec (by decide)]
  dsimp only
  simp only [execInstr]
  have hb1 : (pre ++ (3 :: hi :: lo :: args.length ::
      ((args.map encodeLE8).join ++ post))).getD (pre.length + 1) 0 = hi := by
    rw [List.getD_append_right _ _ _ _ (by omega)]
    have e : pre.length + 1 - pre.length = 1 := by omega
    rw [e]
    rfl
  have hb2 : (pre ++ (3 :: hi :: lo :: args.length ::
      ((args.map encodeLE8).join ++ post))).getD (pre.length + 1 + 1) 0 = lo := by
    rw [List.getD_append_right _ _ _ _ (by omega)]
    have e : pre.length + 1 + 1 - pre.length = 2 := by omega
    rw [e]
    rfl
  have hb3 : (pre ++ (3 :: hi :: lo :: args.length ::
      ((args.map encodeLE8).join ++ post))).getD (pre.length + 1 + 1 + 1) 0 =
      args.length := by
    rw [List.getD_append_right _ _ _ _ (by omega)]
    have e : pre.length + 1 + 1 + 1 - pre.length = 3 := by omega
    rw [e]
    rfl
  rw [read_byte_at _ _ _ _ (by rw [hlen]; omega), hb1]
  dsimp only
  rw [read_byte_at _ _ _ _ (by rw [hlen]; omega), hb2]
  dsimp only
  rw [read_byte_at _ _ _ _ (by rw [hlen]; omega), hb3]
  dsimp only
  have hread := readArgs_encoded args (pre ++ [3, hi, lo, args.length]) post
    stk va hargs hroom
  have e1 : (pre ++ [3, hi, lo, args.length]) ++
      ((args.map encodeLE8).join ++ post) =
      pre ++ (3 :: hi :: lo :: args.length ::
        ((args.map encodeLE8).join ++ post)) := by
    simp
  have e2 : (pre ++ [3, hi, lo, args.length]).length =
      pre.length + 1 + 1 + 1 + 1 := by
    simp
  rw [e1, e2] at hread
  rw [hread]
  rfl

/-- Claim C6, witness: a concrete FuncCall with big-endian target 0x0102 =
258 and the two arguments 522 and 65793 of the repository's own test pushes
Int(522) then Int(65793) (the last argument read on top) and jumps to 258. -/
theorem C6_funccall_witness :
    step 0 ⟨[3, 1, 2, 2, 10, 2, 0, 0, 0, 0, 0, 0, 1, 1, 1, 0, 0, 0, 0, 0],
        [], [], 0⟩ =
      .continu ⟨[3, 1, 2, 2, 10, 2, 0, 0, 0, 0, 0, 0, 1, 1, 1, 0, 0, 0, 0, 0],
        [.Int 65793, .Int 522], [], 258⟩ := by
  have h := C6_funccall 0 [] [] 1 2 [522, 65793] [] []
    (by decide) (by decide) (by decide) (by decide) (by decide)
  rw [show (⟨[3, 1, 2, 2, 10, 2, 0, 0, 0, 0, 0, 0, 1, 1, 1, 0, 0, 0, 0, 0],
        [], [], 0⟩ : VMState) =
      ⟨[] ++ (3 :: 1 :: 2 :: ([522, 65793] : List Int).length ::
        ((([522, 65793] : List Int).map encodeLE8).join ++ [])), [], [],
        List.length ([] : List Nat)⟩ from by decide]
  rw [h]
  decide

end Supert

